import Mathlib

/-!
Verification of the energy-forecast dashboard (`src/app.py`) and the
image-classification demo (`src/Streamlit demo/main.py`).

The forecast arithmetic is embedded over ℚ: the script derives, for each
hourly timestamp of the forecast window, an energy, emission and cost
column from the regressor's predicted watts, then aggregates by appliance
and by calendar date.  The regressor itself is an external artifact and is
modelled as an arbitrary function from (device, hour-index) to watts.

The demo's label lookup is embedded over `List Char`: the label file is
read with `readlines` (line terminators kept), each line loses its final
character, and the list is indexed by the argmax of the classifier output.
-/

/-! ## Constants from src/app.py -/

def CO2_FACTOR : ℚ := 0.475

def TARIFF_DAY : ℚ := 0.15

def TARIFF_NIGHT : ℚ := 0.09

/-- Tariff chosen for a row, from the lambda in `Cost_$`:
`TARIFF_NIGHT if (r["hour"] >= 22 or r["hour"] < 6) else TARIFF_DAY`. -/
def tariff (hour : ℕ) : ℚ :=
  if 22 ≤ hour ∨ hour < 6 then TARIFF_NIGHT else TARIFF_DAY

/-- One row of the per-device forecast frame.  `date` is the number of
whole days since the start date (`timestamp.dt.date` of the `i`-th hourly
timestamp), `hour` is `timestamp.hour`. -/
structure Row where
  Appliance : String
  date : ℕ
  hour : ℕ
  Watts : ℚ
  Energy_kWh : ℚ
  CO2_kg : ℚ
  Cost : ℚ

/-- The `i`-th hourly row for one device: timestamps start at midnight of
the start date with hourly frequency, so the hour of day is `i % 24` and
the calendar date offset is `i / 24`.  The derived columns follow
`app.py` lines 43-48. -/
def mkRow (device : String) (duration : ℕ) (i : ℕ) (w : ℚ) : Row :=
  let e : ℚ := w * duration / 1000
  { Appliance := device
    date := i / 24
    hour := i % 24
    Watts := w
    Energy_kWh := e
    CO2_kg := e * CO2_FACTOR
    Cost := e * tariff (i % 24) }

/-- The concatenated frame `final`: for each selected device, one row per
hour over `24 * days` hours, with watts given by the regression model
`predict`. -/
def forecastRows : List String → ℕ → ℕ → (String → ℕ → ℚ) → List Row
  | [], _, _, _ => []
  | d :: ds, days, duration, predict =>
      ((List.range (24 * days)).map fun i => mkRow d duration i (predict d i))
        ++ forecastRows ds days duration predict

/-! ## Grouped sums (pandas `groupby(...).sum()`) -/

/-- Add `v` to the entry of key `a` in an association list of running
sums, appending a new entry when the key is absent. -/
def insertAdd {α : Type} [DecidableEq α] :
    List (α × ℚ) → α → ℚ → List (α × ℚ)
  | [], a, v => [(a, v)]
  | (b, w) :: gs, a, v =>
      if a = b then (b, w + v) :: gs else (b, w) :: insertAdd gs a v

/-- `groupby(key)[col].sum()`: the association list from group key to the
sum of `val` over that group's rows. -/
def groupBySum {α β : Type} [DecidableEq α]
    (key : β → α) (val : β → ℚ) (rows : List β) : List (α × ℚ) :=
  rows.foldl (fun gs r => insertAdd gs (key r) (val r)) []

/-- Lookup in an association list of sums, with default 0. -/
def lookupD {α : Type} [DecidableEq α] : List (α × ℚ) → α → ℚ
  | [], _ => 0
  | (b, w) :: gs, a => if a = b then w else lookupD gs a

/-- Key of the entry with minimal value, first occurrence winning ties
(pandas `idxmin`). -/
def idxminP {α : Type} : List (α × ℚ) → Option (α × ℚ)
  | [] => none
  | p :: ps => some (ps.foldl (fun best q => if q.2 < best.2 then q else best) p)

def idxmin {α : Type} (gs : List (α × ℚ)) : Option α :=
  (idxminP gs).map Prod.fst

/-- Key of the entry with maximal value, first occurrence winning ties
(pandas `idxmax`). -/
def idxmaxP {α : Type} : List (α × ℚ) → Option (α × ℚ)
  | [] => none
  | p :: ps => some (ps.foldl (fun best q => if best.2 < q.2 then q else best) p)

def idxmax {α : Type} (gs : List (α × ℚ)) : Option α :=
  (idxmaxP gs).map Prod.fst

/-- Total `Cost_$` of the rows falling on calendar date `d`. -/
def dayCost (rows : List Row) (d : ℕ) : ℚ :=
  ((rows.filter fun r => r.date = d).map fun r => r.Cost).sum

/-- Total `Cost_$` of the rows of appliance `a`. -/
def applianceCost (rows : List Row) (a : String) : ℚ :=
  ((rows.filter fun r => r.Appliance = a).map fun r => r.Cost).sum

/-- Total `CO2_kg` of the rows of appliance `a`. -/
def applianceCO2 (rows : List Row) (a : String) : ℚ :=
  ((rows.filter fun r => r.Appliance = a).map fun r => r.CO2_kg).sum

/-- Total `Energy_kWh` of the rows of appliance `a`. -/
def applianceEnergy (rows : List Row) (a : String) : ℚ :=
  ((rows.filter fun r => r.Appliance = a).map fun r => r.Energy_kWh).sum

/-! ## The image-demo label pipeline (src/Streamlit demo/main.py) -/

/-- Python `f.readlines()`: split the file content into lines, keeping
each `'\n'` terminator with its line; a final unterminated chunk is kept
as a last line. -/
def readlines : List Char → List (List Char)
  | [] => []
  | c :: cs =>
      if c = '\n' then ['\n'] :: readlines cs
      else
        match readlines cs with
        | [] => [[c]]
        | l :: ls => (c :: l) :: ls

/-- The `label` list built by `label.append(i[:-1])`: every line of the
file with its final character removed. -/
def labelList (content : List Char) : List (List Char) :=
  (readlines content).map List.dropLast

/-- Indexed view of the classifier output vector, from position `i`. -/
def enumFromQ : ℕ → List ℚ → List (ℕ × ℚ)
  | _, [] => []
  | i, x :: xs => (i, x) :: enumFromQ (i + 1) xs

/-- `np.argmax`: index of the first occurrence of the maximum (0 on an
empty vector, where numpy instead errors). -/
def argmax (xs : List ℚ) : ℕ :=
  match idxmaxP (enumFromQ 0 xs) with
  | none => 0
  | some p => p.1

/-- `model_prediction`: the demo returns the argmax index of the model's
output vector for the uploaded image. -/
def model_prediction (predictions : List ℚ) : ℕ :=
  argmax predictions

/-- `label[result_index]` as displayed by the success message; `none`
models the `IndexError` branch of an out-of-range lookup. -/
def displayedLabel (content : List Char) (predictions : List ℚ) :
    Option (List Char) :=
  (labelList content)[model_prediction predictions]?

/-- Modelled from the spec: the lines of a plain-text file in the sense of
"one label per line, order-significant", terminators excluded.  `splitNl`
splits at every newline; a file ending in `'\n'` has no empty final line. -/
def splitNl : List Char → List (List Char)
  | [] => [[]]
  | c :: cs =>
      if c = '\n' then [] :: splitNl cs
      else
        match splitNl cs with
        | [] => [[c]]
        | l :: ls => (c :: l) :: ls

/-- Modelled from the spec: the ordered list of labels of a label file,
one per line, newline terminators not part of any label. -/
def specLines (content : List Char) : List (List Char) :=
  if content.getLast? = some '\n' then (splitNl content).dropLast
  else splitNl content

/-! ## Lemmas about grouped sums -/

theorem lookupD_insertAdd {α : Type} [DecidableEq α]
    (gs : List (α × ℚ)) (a : α) (v : ℚ) (b : α) :
    lookupD (insertAdd gs a v) b = lookupD gs b + if b = a then v else 0 := by
  induction gs with
  | nil =>
      by_cases h : b = a <;> simp [insertAdd, lookupD, h]
  | cons p gs ih =>
      obtain ⟨c, w⟩ := p
      by_cases hac : a = c
      · subst hac
        by_cases hba : b = a <;> simp [insertAdd, lookupD, hba]
      · by_cases hbc : b = c
        · subst hbc
          have hba : ¬ b = a := fun h => hac h.symm
          simp [insertAdd, lookupD, hac, hba]
        · simp [insertAdd, lookupD, hac, hbc, ih]

theorem lookupD_foldl_insertAdd {α β : Type} [DecidableEq α]
    (key : β → α) (val : β → ℚ) (rows : List β) :
    ∀ (gs : List (α × ℚ)) (a : α),
      lookupD (rows.foldl (fun gs r => insertAdd gs (key r) (val r)) gs) a
        = lookupD gs a + ((rows.filter fun r => key r = a).map val).sum := by
  induction rows with
  | nil => simp
  | cons r rows ih =>
      intro gs a
      rw [List.foldl_cons, ih, lookupD_insertAdd, List.filter_cons]
      by_cases h : key r = a
      · simp [h, add_assoc]
      · have h' : ¬ a = key r := fun he => h he.symm
        simp [h, h']

theorem lookupD_groupBySum {α β : Type} [DecidableEq α]
    (key : β → α) (val : β → ℚ) (rows : List β) (a : α) :
    lookupD (groupBySum key val rows) a
      = ((rows.filter fun r => key r = a).map val).sum := by
  simpa [lookupD] using lookupD_foldl_insertAdd key val rows [] a

theorem mem_map_fst_insertAdd {α : Type} [DecidableEq α]
    (gs : List (α × ℚ)) (a : α) (v : ℚ) (b : α) :
    b ∈ (insertAdd gs a v).map Prod.fst ↔ b ∈ gs.map Prod.fst ∨ b = a := by
  induction gs with
  | nil => simp [insertAdd]
  | cons p gs ih =>
      obtain ⟨c, w⟩ := p
      by_cases hac : a = c
      · subst hac
        simp [insertAdd]
        tauto
      · simp [insertAdd, hac, ih]
        tauto

theorem nodup_map_fst_insertAdd {α : Type} [DecidableEq α]
    {gs : List (α × ℚ)} (a : α) (v : ℚ)
    (h : (gs.map Prod.fst).Nodup) : ((insertAdd gs a v).map Prod.fst).Nodup := by
  induction gs with
  | nil => simp [insertAdd]
  | cons p gs ih =>
      obtain ⟨c, w⟩ := p
      simp only [List.map_cons, List.nodup_cons] at h
      obtain ⟨hc, hgs⟩ := h
      by_cases hac : a = c
      · subst hac
        simpa [insertAdd] using And.intro hc hgs
      · simp only [insertAdd, if_neg hac, List.map_cons, List.nodup_cons]
        refine ⟨?_, ih hgs⟩
        rw [mem_map_fst_insertAdd]
        rintro (h | h)
        · exact hc h
        · exact hac h.symm

theorem nodup_map_fst_foldl_insertAdd {α β : Type} [DecidableEq α]
    (key : β → α) (val : β → ℚ) (rows : List β) :
    ∀ gs : List (α × ℚ), (gs.map Prod.fst).Nodup →
      ((rows.foldl (fun gs r => insertAdd gs (key r) (val r)) gs).map Prod.fst).Nodup := by
  induction rows with
  | nil => intro gs h; simpa using h
  | cons r rows ih =>
      intro gs h
      exact ih _ (nodup_map_fst_insertAdd _ _ h)

theorem nodup_map_fst_groupBySum {α β : Type} [DecidableEq α]
    (key : β → α) (val : β → ℚ) (rows : List β) :
    ((groupBySum key val rows).map Prod.fst).Nodup :=
  nodup_map_fst_foldl_insertAdd key val rows [] (by simp)

theorem mem_map_fst_foldl_insertAdd {α β : Type} [DecidableEq α]
    (key : β → α) (val : β → ℚ) (rows : List β) :
    ∀ (gs : List (α × ℚ)) (b : α),
      b ∈ ((rows.foldl (fun gs r => insertAdd gs (key r) (val r)) gs).map Prod.fst) ↔
        b ∈ gs.map Prod.fst ∨ b ∈ rows.map key := by
  induction rows with
  | nil => simp
  | cons r rows ih =>
      intro gs b
      rw [List.foldl_cons, ih, mem_map_fst_insertAdd]
      simp
      tauto

theorem mem_map_fst_groupBySum {α β : Type} [DecidableEq α]
    (key : β → α) (val : β → ℚ) (rows : List β) (b : α) :
    b ∈ (groupBySum key val rows).map Prod.fst ↔ b ∈ rows.map key := by
  rw [groupBySum, mem_map_fst_foldl_insertAdd]
  simp

theorem lookupD_eq_of_mem {α : Type} [DecidableEq α]
    {gs : List (α × ℚ)} {a : α} {v : ℚ}
    (hnd : (gs.map Prod.fst).Nodup) (h : (a, v) ∈ gs) : lookupD gs a = v := by
  induction gs with
  | nil => simp at h
  | cons p gs ih =>
      obtain ⟨c, w⟩ := p
      simp only [List.map_cons, List.nodup_cons] at hnd
      rcases List.mem_cons.mp h with h1 | h1
      · obtain ⟨rfl, rfl⟩ := Prod.mk.injEq .. ▸ h1
        · simp [lookupD]
      · have hac : ¬ a = c := by
          rintro rfl
          exact hnd.1 (List.mem_map.mpr ⟨(a, v), h1, rfl⟩)
        simp [lookupD, hac, ih hnd.2 h1]

theorem mem_of_mem_map_fst {α : Type} [DecidableEq α]
    {gs : List (α × ℚ)} {a : α}
    (h : a ∈ gs.map Prod.fst) : (a, lookupD gs a) ∈ gs := by
  induction gs with
  | nil => simp at h
  | cons p gs ih =>
      obtain ⟨c, w⟩ := p
      by_cases hac : a = c
      · subst hac
        simp [lookupD]
      · simp only [List.map_cons, List.mem_cons] at h
        rcases h with h | h
        · exact absurd h hac
        · simp only [lookupD, if_neg hac]
          exact List.mem_cons_of_mem _ (ih h)

/-! ## idxmin / idxmax specifications -/

theorem foldlMin_spec {α : Type} (ps : List (α × ℚ)) :
    ∀ b : α × ℚ,
      (ps.foldl (fun best q => if q.2 < best.2 then q else best) b = b ∨
        ps.foldl (fun best q => if q.2 < best.2 then q else best) b ∈ ps) ∧
      (ps.foldl (fun best q => if q.2 < best.2 then q else best) b).2 ≤ b.2 ∧
      ∀ q ∈ ps, (ps.foldl (fun best q => if q.2 < best.2 then q else best) b).2 ≤ q.2 := by
  induction ps with
  | nil => intro b; exact ⟨Or.inl rfl, le_refl _, by simp⟩
  | cons q0 ps ih =>
      intro b
      rw [List.foldl_cons]
      obtain ⟨hmem, hle, hall⟩ := ih (if q0.2 < b.2 then q0 else b)
      have hb : (if q0.2 < b.2 then q0 else b).2 ≤ b.2 := by
        split
        · exact le_of_lt (by assumption)
        · exact le_refl _
      have hq0 : (if q0.2 < b.2 then q0 else b).2 ≤ q0.2 := by
        split
        · exact le_refl _
        · exact le_of_not_lt (by assumption)
      refine ⟨?_, le_trans hle hb, ?_⟩
      · rcases hmem with hmem | hmem
        · rw [hmem]
          split
          · exact Or.inr (List.mem_cons_self _ _)
          · exact Or.inl rfl
        · exact Or.inr (List.mem_cons_of_mem _ hmem)
      · intro q hq
        rcases List.mem_cons.mp hq with rfl | hq
        · exact le_trans hle hq0
        · exact hall q hq

theorem foldlMax_spec {α : Type} (ps : List (α × ℚ)) :
    ∀ b : α × ℚ,
      (ps.foldl (fun best q => if best.2 < q.2 then q else best) b = b ∨
        ps.foldl (fun best q => if best.2 < q.2 then q else best) b ∈ ps) ∧
      b.2 ≤ (ps.foldl (fun best q => if best.2 < q.2 then q else best) b).2 ∧
      ∀ q ∈ ps, q.2 ≤ (ps.foldl (fun best q => if best.2 < q.2 then q else best) b).2 := by
  induction ps with
  | nil => intro b; exact ⟨Or.inl rfl, le_refl _, by simp⟩
  | cons q0 ps ih =>
      intro b
      rw [List.foldl_cons]
      obtain ⟨hmem, hle, hall⟩ := ih (if b.2 < q0.2 then q0 else b)
      have hb : b.2 ≤ (if b.2 < q0.2 then q0 else b).2 := by
        split
        · exact le_of_lt (by assumption)
        · exact le_refl _
      have hq0 : q0.2 ≤ (if b.2 < q0.2 then q0 else b).2 := by
        split
        · exact le_refl _
        · exact le_of_not_lt (by assumption)
      refine ⟨?_, le_trans hb hle, ?_⟩
      · rcases hmem with hmem | hmem
        · rw [hmem]
          split
          · exact Or.inr (List.mem_cons_self _ _)
          · exact Or.inl rfl
        · exact Or.inr (List.mem_cons_of_mem _ hmem)
      · intro q hq
        rcases List.mem_cons.mp hq with rfl | hq
        · exact le_trans hq0 hle
        · exact hall q hq

theorem idxminP_spec {α : Type} {gs : List (α × ℚ)} {p : α × ℚ}
    (h : idxminP gs = some p) : p ∈ gs ∧ ∀ q ∈ gs, p.2 ≤ q.2 := by
  cases gs with
  | nil => simp [idxminP] at h
  | cons p0 ps =>
      simp only [idxminP, Option.some.injEq] at h
      obtain ⟨hmem, hle, hall⟩ := foldlMin_spec ps p0
      rw [h] at hmem hle hall
      constructor
      · rcases hmem with hmem | hmem
        · exact hmem ▸ List.mem_cons_self _ _
        · exact List.mem_cons_of_mem _ hmem
      · intro q hq
        rcases List.mem_cons.mp hq with rfl | hq
        · exact hle
        · exact hall q hq

theorem idxmaxP_spec {α : Type} {gs : List (α × ℚ)} {p : α × ℚ}
    (h : idxmaxP gs = some p) : p ∈ gs ∧ ∀ q ∈ gs, q.2 ≤ p.2 := by
  cases gs with
  | nil => simp [idxmaxP] at h
  | cons p0 ps =>
      simp only [idxmaxP, Option.some.injEq] at h
      obtain ⟨hmem, hle, hall⟩ := foldlMax_spec ps p0
      rw [h] at hmem hle hall
      constructor
      · rcases hmem with hmem | hmem
        · exact hmem ▸ List.mem_cons_self _ _
        · exact List.mem_cons_of_mem _ hmem
      · intro q hq
        rcases List.mem_cons.mp hq with rfl | hq
        · exact hle
        · exact hall q hq

/-! ## Shape of the forecast frame -/

theorem mem_forecastRows {devices : List String} {days duration : ℕ}
    {predict : String → ℕ → ℚ} {r : Row} :
    r ∈ forecastRows devices days duration predict ↔
      ∃ d ∈ devices, ∃ i, i < 24 * days ∧ r = mkRow d duration i (predict d i) := by
  induction devices with
  | nil => simp [forecastRows]
  | cons d ds ih =>
      simp only [forecastRows, List.mem_append, List.mem_map, List.mem_range, ih,
        List.mem_cons]
      constructor
      · rintro (⟨i, hi, rfl⟩ | ⟨d', hd', i, hi, rfl⟩)
        · exact ⟨d, Or.inl rfl, i, hi, rfl⟩
        · exact ⟨d', Or.inr hd', i, hi, rfl⟩
      · rintro ⟨d', hd' | hd', i, hi, rfl⟩
        · exact Or.inl ⟨i, hi, by rw [hd']⟩
        · exact Or.inr ⟨d', hd', i, hi, rfl⟩

theorem forecastRows_ne_nil {devices : List String} {days duration : ℕ}
    {predict : String → ℕ → ℚ}
    (hdev : devices ≠ []) (hdays : 0 < days) :
    forecastRows devices days duration predict ≠ [] := by
  obtain ⟨d, ds, rfl⟩ := List.exists_cons_of_ne_nil hdev
  have h0 : 0 < 24 * days := by omega
  intro h
  have : mkRow d duration 0 (predict d 0) ∈ forecastRows (d :: ds) days duration predict :=
    mem_forecastRows.mpr ⟨d, List.mem_cons_self _ _, 0, h0, rfl⟩
  rw [h] at this
  simp at this

/-! ## Argmax of the classifier output -/

theorem mem_enumFromQ {xs : List ℚ} :
    ∀ {i : ℕ} {p : ℕ × ℚ}, p ∈ enumFromQ i xs → ∃ j, p.1 = i + j ∧ xs[j]? = some p.2 := by
  induction xs with
  | nil => intro i p h; simp [enumFromQ] at h
  | cons x xs ih =>
      intro i p h
      rcases List.mem_cons.mp h with rfl | h
      · exact ⟨0, by simp⟩
      · obtain ⟨j, hj, hget⟩ := ih h
        exact ⟨j + 1, by omega, by simpa using hget⟩

theorem enumFromQ_mem_of_getElem {xs : List ℚ} :
    ∀ {j : ℕ} {v : ℚ} (i : ℕ), xs[j]? = some v → (i + j, v) ∈ enumFromQ i xs := by
  induction xs with
  | nil => intro j v i h; simp at h
  | cons x xs ih =>
      intro j v i h
      cases j with
      | zero =>
          simp only [List.getElem?_cons_zero, Option.some.injEq] at h
          subst h
          simp [enumFromQ]
      | succ j =>
          simp only [List.getElem?_cons_succ] at h
          have := ih (i + 1) h
          have harith : i + (j + 1) = i + 1 + j := by omega
          rw [harith]
          exact List.mem_cons_of_mem _ this

theorem argmax_spec {xs : List ℚ} {j : ℕ} {v : ℚ} (h : xs[j]? = some v) :
    ∃ m, xs[argmax xs]? = some m ∧ v ≤ m := by
  have hmem : (0 + j, v) ∈ enumFromQ 0 xs := enumFromQ_mem_of_getElem 0 h
  cases hP : idxmaxP (enumFromQ 0 xs) with
  | none =>
      cases henum : enumFromQ 0 xs with
      | nil => rw [henum] at hmem; simp at hmem
      | cons e es => rw [henum] at hP; simp [idxmaxP] at hP
  | some p =>
      obtain ⟨hpmem, hmax⟩ := idxmaxP_spec hP
      obtain ⟨j', hj', hget⟩ := mem_enumFromQ hpmem
      have hargmax : argmax xs = p.1 := by simp [argmax, hP]
      refine ⟨p.2, ?_, hmax _ hmem⟩
      rw [hargmax, hj']
      simpa using hget

theorem argmax_lt_length {xs : List ℚ} (h : xs ≠ []) : argmax xs < xs.length := by
  obtain ⟨x, xs', rfl⟩ := List.exists_cons_of_ne_nil h
  obtain ⟨m, hm, _⟩ := argmax_spec (show (x :: xs')[0]? = some x by simp)
  by_contra hlen
  rw [List.getElem?_eq_none_iff.mpr (Nat.le_of_not_lt hlen)] at hm
  exact Option.noConfusion hm

/-! ## Lines of the label file -/

theorem splitNl_ne_nil : ∀ s : List Char, splitNl s ≠ [] := by
  intro s
  cases s with
  | nil => simp [splitNl]
  | cons c cs =>
      simp only [splitNl]
      split
      · simp
      · cases h : splitNl cs <;> simp

theorem readlines_ne_nil : ∀ {s : List Char}, s ≠ [] → readlines s ≠ [] := by
  intro s hs
  cases s with
  | nil => exact absurd rfl hs
  | cons c cs =>
      simp only [readlines]
      split
      · simp
      · cases h : readlines cs <;> simp

theorem ne_nil_of_mem_readlines :
    ∀ {s : List Char} {l : List Char}, l ∈ readlines s → l ≠ [] := by
  intro s
  induction s with
  | nil => intro l h; simp [readlines] at h
  | cons c cs ih =>
      intro l h
      simp only [readlines] at h
      split at h
      · rcases List.mem_cons.mp h with rfl | h
        · simp
        · exact ih h
      · rcases hr : readlines cs with _ | ⟨l0, ls⟩ <;> rw [hr] at h
        · rcases List.mem_cons.mp h with rfl | h
          · simp
          · simp at h
        · rcases List.mem_cons.mp h with rfl | h
          · simp
          · exact ih (hr ▸ List.mem_cons_of_mem _ h)

theorem readlines_cons (c : Char) (cs : List Char) :
    readlines (c :: cs) =
      if c = '\n' then ['\n'] :: readlines cs
      else
        match readlines cs with
        | [] => [[c]]
        | l :: ls => (c :: l) :: ls := rfl

theorem splitNl_cons (c : Char) (cs : List Char) :
    splitNl (c :: cs) =
      if c = '\n' then [] :: splitNl cs
      else
        match splitNl cs with
        | [] => [[c]]
        | l :: ls => (c :: l) :: ls := rfl

/-- On a newline-terminated file, reading the lines with their
terminators and then deleting the last character of each line gives
exactly the terminator-free lines of the file. -/
theorem map_dropLast_readlines :
    ∀ {s : List Char}, s.getLast? = some '\n' →
      (readlines s).map List.dropLast = (splitNl s).dropLast := by
  intro s
  induction s with
  | nil => intro h; simp at h
  | cons c cs ih =>
      intro hterm
      cases cs with
      | nil =>
          have hc : c = '\n' := by simpa using hterm
          subst hc
          simp [readlines, splitNl]
      | cons c' cs' =>
          have hterm' : (c' :: cs').getLast? = some '\n' := by
            rwa [List.getLast?_cons_cons] at hterm
          have ihh := ih hterm'
          by_cases hc : c = '\n'
          · subst hc
            rw [readlines_cons, splitNl_cons, if_pos rfl, if_pos rfl,
              List.map_cons, List.dropLast_cons_of_ne_nil (splitNl_ne_nil _), ihh]
            simp
          · have hrne := readlines_ne_nil (s := c' :: cs') (by simp)
            obtain ⟨l, ls, hrl⟩ := List.exists_cons_of_ne_nil hrne
            have hsne := splitNl_ne_nil (c' :: cs')
            obtain ⟨m, ms, hsm⟩ := List.exists_cons_of_ne_nil hsne
            rw [hrl, hsm] at ihh
            cases ms with
            | nil => simp at ihh
            | cons m1 ms1 =>
                rw [List.dropLast_cons_of_ne_nil (by simp)] at ihh
                obtain ⟨h1, h2⟩ := List.cons_eq_cons.mp ihh
                have hlne : l ≠ [] :=
                  ne_nil_of_mem_readlines (hrl ▸ List.mem_cons_self l ls)
                rw [readlines_cons, splitNl_cons, if_neg hc, if_neg hc, hrl, hsm]
                show List.map List.dropLast ((c :: l) :: ls)
                  = ((c :: m) :: m1 :: ms1).dropLast
                rw [List.map_cons, List.dropLast_cons₂,
                  List.dropLast_cons_of_ne_nil hlne, h1, h2]

/-! ## Claims -/

/-- C1: every hourly forecast row's cost multiplies the row's energy by the
night rate 0.09 exactly when the row's local hour lies in [22,24) or [0,6),
and by the day rate 0.15 for every other hour; each row's hour lies in
[0,24). -/
theorem C1_tariff_selection (devices : List String) (days duration : ℕ)
    (predict : String → ℕ → ℚ) (r : Row)
    (hr : r ∈ forecastRows devices days duration predict) :
    r.hour < 24 ∧
    r.Cost = r.Energy_kWh * tariff r.hour ∧
    (tariff r.hour = 0.09 ↔ (22 ≤ r.hour ∨ r.hour < 6)) ∧
    (tariff r.hour = 0.15 ↔ ¬(22 ≤ r.hour ∨ r.hour < 6)) := by
  obtain ⟨d, hd, i, hi, rfl⟩ := mem_forecastRows.mp hr
  refine ⟨Nat.mod_lt _ (by norm_num), rfl, ?_, ?_⟩
  · constructor
    · intro h
      by_contra hcond
      rw [tariff, if_neg hcond] at h
      norm_num [TARIFF_DAY] at h
    · intro h
      rw [tariff, if_pos h]
      rfl
  · constructor
    · intro h
      intro hcond
      rw [tariff, if_pos hcond] at h
      norm_num [TARIFF_NIGHT] at h
    · intro h
      rw [tariff, if_neg h]
      rfl

theorem C1_witness :
    mkRow "heater" 3 23 1000 ∈ forecastRows ["heater"] 1 3 (fun _ _ => 1000) ∧
    ((mkRow "heater" 3 23 1000).hour < 24 ∧
      (mkRow "heater" 3 23 1000).Cost
        = (mkRow "heater" 3 23 1000).Energy_kWh * tariff (mkRow "heater" 3 23 1000).hour ∧
      (tariff (mkRow "heater" 3 23 1000).hour = 0.09 ↔
        (22 ≤ (mkRow "heater" 3 23 1000).hour ∨ (mkRow "heater" 3 23 1000).hour < 6)) ∧
      (tariff (mkRow "heater" 3 23 1000).hour = 0.15 ↔
        ¬(22 ≤ (mkRow "heater" 3 23 1000).hour ∨ (mkRow "heater" 3 23 1000).hour < 6))) :=
  have hmem : mkRow "heater" 3 23 1000 ∈ forecastRows ["heater"] 1 3 (fun _ _ => 1000) :=
    List.mem_append_left _ (List.mem_map.mpr ⟨23, List.mem_range.mpr (by decide), rfl⟩)
  ⟨hmem, C1_tariff_selection _ _ _ _ _ hmem⟩

/-- C2: every hourly forecast row's energy equals the predicted watts times
the user-selected daily usage hours, divided by 1000, exactly. -/
theorem C2_energy_conversion (devices : List String) (days duration : ℕ)
    (predict : String → ℕ → ℚ) (r : Row)
    (hr : r ∈ forecastRows devices days duration predict) :
    r.Energy_kWh = r.Watts * duration / 1000 := by
  obtain ⟨d, hd, i, hi, rfl⟩ := mem_forecastRows.mp hr
  rfl

theorem C2_witness :
    mkRow "fridge" 5 7 640 ∈ forecastRows ["fridge"] 1 5 (fun _ _ => 640) ∧
    (mkRow "fridge" 5 7 640).Energy_kWh = (mkRow "fridge" 5 7 640).Watts * 5 / 1000 :=
  have hmem : mkRow "fridge" 5 7 640 ∈ forecastRows ["fridge"] 1 5 (fun _ _ => 640) :=
    List.mem_append_left _ (List.mem_map.mpr ⟨7, List.mem_range.mpr (by decide), rfl⟩)
  ⟨hmem, C2_energy_conversion _ _ _ _ _ hmem⟩

/-- C3: every hourly forecast row's emissions equal its energy times the
emission factor 0.475. -/
theorem C3_emission_factor (devices : List String) (days duration : ℕ)
    (predict : String → ℕ → ℚ) (r : Row)
    (hr : r ∈ forecastRows devices days duration predict) :
    r.CO2_kg = r.Energy_kWh * 0.475 := by
  obtain ⟨d, hd, i, hi, rfl⟩ := mem_forecastRows.mp hr
  rfl

theorem C3_witness :
    mkRow "fan" 2 11 120 ∈ forecastRows ["fan"] 1 2 (fun _ _ => 120) ∧
    (mkRow "fan" 2 11 120).CO2_kg = (mkRow "fan" 2 11 120).Energy_kWh * 0.475 :=
  have hmem : mkRow "fan" 2 11 120 ∈ forecastRows ["fan"] 1 2 (fun _ _ => 120) :=
    List.mem_append_left _ (List.mem_map.mpr ⟨11, List.mem_range.mpr (by decide), rfl⟩)
  ⟨hmem, C3_emission_factor _ _ _ _ _ hmem⟩

/-- C6: for duration 3 hours and a row with predicted watts 1000 at local
hour 23 the derived values are Energy_kWh = 3, the night tariff 0.09 is
applied, Cost = 0.27 and CO2_kg = 1.425. -/
theorem C6_worked_example :
    (mkRow "heater" 3 23 1000).hour = 23 ∧
    (mkRow "heater" 3 23 1000).Energy_kWh = 3 ∧
    tariff 23 = TARIFF_NIGHT ∧ TARIFF_NIGHT = 0.09 ∧
    (mkRow "heater" 3 23 1000).Cost = 0.27 ∧
    (mkRow "heater" 3 23 1000).CO2_kg = 1.425 := by
  refine ⟨rfl, ?_, ?_, rfl, ?_, ?_⟩ <;>
    norm_num [mkRow, tariff, TARIFF_NIGHT, CO2_FACTOR]

/-- C5: for a fixed vector of per-hour predicted watts, each appliance's
summary entry (energy, emissions, cost) equals the sum of the per-hour
derived column over exactly that appliance's rows. -/
theorem C5_summary_sums (devices : List String) (days duration : ℕ)
    (predict : String → ℕ → ℚ) (a : String) :
    lookupD (groupBySum (fun r => r.Appliance) (fun r => r.Energy_kWh)
        (forecastRows devices days duration predict)) a
      = applianceEnergy (forecastRows devices days duration predict) a ∧
    lookupD (groupBySum (fun r => r.Appliance) (fun r => r.CO2_kg)
        (forecastRows devices days duration predict)) a
      = applianceCO2 (forecastRows devices days duration predict) a ∧
    lookupD (groupBySum (fun r => r.Appliance) (fun r => r.Cost)
        (forecastRows devices days duration predict)) a
      = applianceCost (forecastRows devices days duration predict) a :=
  ⟨lookupD_groupBySum _ _ _ _, lookupD_groupBySum _ _ _ _, lookupD_groupBySum _ _ _ _⟩

theorem date_lt_days {devices : List String} {days duration : ℕ}
    {predict : String → ℕ → ℚ} {x : ℕ}
    (hx : x ∈ (forecastRows devices days duration predict).map fun r => r.date) :
    x < days := by
  obtain ⟨r, hr, hrd⟩ := List.mem_map.mp hx
  obtain ⟨d, hd, i, hi, rfl⟩ := mem_forecastRows.mp hr
  have hdate : (mkRow d duration i (predict d i)).date = i / 24 := rfl
  rw [hdate] at hrd
  have : i / 24 < days := Nat.div_lt_of_lt_mul (by omega)
  omega

theorem days_mem_dates {devices : List String} {days duration : ℕ}
    {predict : String → ℕ → ℚ} {x : ℕ}
    (hdev : devices ≠ []) (hx : x < days) :
    x ∈ (forecastRows devices days duration predict).map fun r => r.date := by
  obtain ⟨dev, devs, rfl⟩ := List.exists_cons_of_ne_nil hdev
  refine List.mem_map.mpr
    ⟨mkRow dev duration (24 * x) (predict dev (24 * x)), ?_, ?_⟩
  · exact mem_forecastRows.mpr
      ⟨dev, List.mem_cons_self _ _, 24 * x, by omega, rfl⟩
  · show 24 * x / 24 = x
    exact Nat.mul_div_cancel_left x (by norm_num)

/-- C4: the day reported as best has total cost (summed across the selected
appliances) at most every other day's total in the forecast window, and the
day reported as worst has total at least every other day's. -/
theorem C4_best_worst_day (devices : List String) (days duration : ℕ)
    (predict : String → ℕ → ℚ)
    (hdev : devices ≠ []) (hdays : 0 < days) :
    ∃ b w,
      idxmin (groupBySum (fun r => r.date) (fun r => r.Cost)
        (forecastRows devices days duration predict)) = some b ∧
      idxmax (groupBySum (fun r => r.date) (fun r => r.Cost)
        (forecastRows devices days duration predict)) = some w ∧
      b < days ∧ w < days ∧
      ∀ d, d < days →
        dayCost (forecastRows devices days duration predict) b
          ≤ dayCost (forecastRows devices days duration predict) d ∧
        dayCost (forecastRows devices days duration predict) d
          ≤ dayCost (forecastRows devices days duration predict) w := by
  set rows := forecastRows devices days duration predict with hrows
  set daily := groupBySum (fun r => r.date) (fun r => r.Cost) rows with hdaily
  have hnd : (daily.map Prod.fst).Nodup := nodup_map_fst_groupBySum _ _ _
  have hdne : daily ≠ [] := by
    have h0 : (0 : ℕ) ∈ rows.map fun r => r.date := days_mem_dates hdev hdays
    have : (0 : ℕ) ∈ daily.map Prod.fst := (mem_map_fst_groupBySum _ _ _ _).mpr h0
    intro h
    rw [h] at this
    simp at this
  obtain ⟨p0, ps0, hd0⟩ := List.exists_cons_of_ne_nil hdne
  obtain ⟨pmin, hpmin⟩ : ∃ p, idxminP daily = some p := ⟨_, by rw [hd0]; rfl⟩
  obtain ⟨pmax, hpmax⟩ : ∃ p, idxmaxP daily = some p := ⟨_, by rw [hd0]; rfl⟩
  obtain ⟨hminmem, hminle⟩ := idxminP_spec hpmin
  obtain ⟨hmaxmem, hmaxge⟩ := idxmaxP_spec hpmax
  have hminval : pmin.2 = dayCost rows pmin.1 := by
    rw [← lookupD_eq_of_mem hnd hminmem, hdaily, lookupD_groupBySum]
    rfl
  have hmaxval : pmax.2 = dayCost rows pmax.1 := by
    rw [← lookupD_eq_of_mem hnd hmaxmem, hdaily, lookupD_groupBySum]
    rfl
  refine ⟨pmin.1, pmax.1, by rw [idxmin, hpmin]; rfl, by rw [idxmax, hpmax]; rfl,
    ?_, ?_, ?_⟩
  · exact date_lt_days ((mem_map_fst_groupBySum _ _ _ _).mp
      (List.mem_map_of_mem Prod.fst hminmem))
  · exact date_lt_days ((mem_map_fst_groupBySum _ _ _ _).mp
      (List.mem_map_of_mem Prod.fst hmaxmem))
  · intro d hd
    have hdkey : d ∈ daily.map Prod.fst :=
      (mem_map_fst_groupBySum _ _ _ _).mpr (days_mem_dates hdev hd)
    have hdmem : (d, lookupD daily d) ∈ daily := mem_of_mem_map_fst hdkey
    have hdval : lookupD daily d = dayCost rows d := by
      rw [hdaily, lookupD_groupBySum]
      rfl
    constructor
    · have := hminle _ hdmem
      rwa [hminval, hdval] at this
    · have := hmaxge _ hdmem
      rwa [hmaxval, hdval] at this

theorem C4_witness :
    (["heater"] : List String) ≠ [] ∧ 0 < 1 ∧
    ∃ b w,
      idxmin (groupBySum (fun r => r.date) (fun r => r.Cost)
        (forecastRows ["heater"] 1 3 fun _ _ => 100)) = some b ∧
      idxmax (groupBySum (fun r => r.date) (fun r => r.Cost)
        (forecastRows ["heater"] 1 3 fun _ _ => 100)) = some w ∧
      b < 1 ∧ w < 1 ∧
      ∀ d, d < 1 →
        dayCost (forecastRows ["heater"] 1 3 fun _ _ => 100) b
          ≤ dayCost (forecastRows ["heater"] 1 3 fun _ _ => 100) d ∧
        dayCost (forecastRows ["heater"] 1 3 fun _ _ => 100) d
          ≤ dayCost (forecastRows ["heater"] 1 3 fun _ _ => 100) w :=
  ⟨by simp, by decide,
    C4_best_worst_day ["heater"] 1 3 (fun _ _ => 100) (by simp) (by decide)⟩

theorem appliance_mem_devices {devices : List String} {days duration : ℕ}
    {predict : String → ℕ → ℚ} {x : String}
    (hx : x ∈ (forecastRows devices days duration predict).map fun r => r.Appliance) :
    x ∈ devices := by
  obtain ⟨r, hr, hrd⟩ := List.mem_map.mp hx
  obtain ⟨d, hd, i, hi, rfl⟩ := mem_forecastRows.mp hr
  have happ : (mkRow d duration i (predict d i)).Appliance = d := rfl
  rw [happ] at hrd
  exact hrd ▸ hd

theorem devices_mem_appliances {devices : List String} {days duration : ℕ}
    {predict : String → ℕ → ℚ} {x : String}
    (hdays : 0 < days) (hx : x ∈ devices) :
    x ∈ (forecastRows devices days duration predict).map fun r => r.Appliance :=
  List.mem_map.mpr ⟨mkRow x duration 0 (predict x 0),
    mem_forecastRows.mpr ⟨x, hx, 0, by omega, rfl⟩, rfl⟩

/-- Watts profile with device A peaking in a day-tariff hour and device B
drawing more total energy in a night-tariff hour: A costs more, B emits
more. -/
def predictTwoPeaks : String → ℕ → ℚ := fun d i =>
  if d = "A" then (if i = 12 then 1000 else 0) else (if i = 2 then 1100 else 0)

/-- Watts profile with device A always drawing more than device B: A both
costs more and emits more. -/
def predictFlat : String → ℕ → ℚ := fun d _ => if d = "A" then 2 else 1

/-- C8: the appliance reported as biggest cost driver maximises total cost
over the selected appliances and the appliance reported as highest carbon
impact maximises total CO2; the two maximisations are computed
independently, and concrete runs witness that they can pick different
appliances or the same one. -/
theorem C8_top_contributors :
    (∀ (devices : List String) (days duration : ℕ) (predict : String → ℕ → ℚ),
      devices ≠ [] → 0 < days →
      ∃ ac ax,
        idxmax (groupBySum (fun r => r.Appliance) (fun r => r.Cost)
          (forecastRows devices days duration predict)) = some ac ∧
        idxmax (groupBySum (fun r => r.Appliance) (fun r => r.CO2_kg)
          (forecastRows devices days duration predict)) = some ax ∧
        ac ∈ devices ∧ ax ∈ devices ∧
        ∀ a ∈ devices,
          applianceCost (forecastRows devices days duration predict) a
            ≤ applianceCost (forecastRows devices days duration predict) ac ∧
          applianceCO2 (forecastRows devices days duration predict) a
            ≤ applianceCO2 (forecastRows devices days duration predict) ax) ∧
    (idxmax (groupBySum (fun r => r.Appliance) (fun r => r.Cost)
        (forecastRows ["A", "B"] 1 1 predictTwoPeaks)) = some "A" ∧
      idxmax (groupBySum (fun r => r.Appliance) (fun r => r.CO2_kg)
        (forecastRows ["A", "B"] 1 1 predictTwoPeaks)) = some "B") ∧
    (idxmax (groupBySum (fun r => r.Appliance) (fun r => r.Cost)
        (forecastRows ["A", "B"] 1 1 predictFlat)) = some "A" ∧
      idxmax (groupBySum (fun r => r.Appliance) (fun r => r.CO2_kg)
        (forecastRows ["A", "B"] 1 1 predictFlat)) = some "A") := by
  refine ⟨?_, ?_, ?_⟩
  · intro devices days duration predict hdev hdays
    set rows := forecastRows devices days duration predict with hrows
    set sumCost := groupBySum (fun r => r.Appliance) (fun r => r.Cost) rows
      with hsumCost
    set sumCO2 := groupBySum (fun r => r.Appliance) (fun r => r.CO2_kg) rows
      with hsumCO2
    have hndC : (sumCost.map Prod.fst).Nodup := nodup_map_fst_groupBySum _ _ _
    have hndE : (sumCO2.map Prod.fst).Nodup := nodup_map_fst_groupBySum _ _ _
    obtain ⟨dev, devs, hdevs⟩ := List.exists_cons_of_ne_nil hdev
    have hdev0 : dev ∈ devices := hdevs ▸ List.mem_cons_self _ _
    have hCne : sumCost ≠ [] := by
      have : dev ∈ sumCost.map Prod.fst :=
        (mem_map_fst_groupBySum _ _ _ _).mpr (devices_mem_appliances hdays hdev0)
      intro h
      rw [h] at this
      simp at this
    have hEne : sumCO2 ≠ [] := by
      have : dev ∈ sumCO2.map Prod.fst :=
        (mem_map_fst_groupBySum _ _ _ _).mpr (devices_mem_appliances hdays hdev0)
      intro h
      rw [h] at this
      simp at this
    obtain ⟨pc0, pcs0, hc0⟩ := List.exists_cons_of_ne_nil hCne
    obtain ⟨pe0, pes0, he0⟩ := List.exists_cons_of_ne_nil hEne
    obtain ⟨pc, hpc⟩ : ∃ p, idxmaxP sumCost = some p := ⟨_, by rw [hc0]; rfl⟩
    obtain ⟨pe, hpe⟩ : ∃ p, idxmaxP sumCO2 = some p := ⟨_, by rw [he0]; rfl⟩
    obtain ⟨hpcmem, hpcge⟩ := idxmaxP_spec hpc
    obtain ⟨hpemem, hpege⟩ := idxmaxP_spec hpe
    have hpcval : pc.2 = applianceCost rows pc.1 := by
      rw [← lookupD_eq_of_mem hndC hpcmem, hsumCost, lookupD_groupBySum]
      rfl
    have hpeval : pe.2 = applianceCO2 rows pe.1 := by
      rw [← lookupD_eq_of_mem hndE hpemem, hsumCO2, lookupD_groupBySum]
      rfl
    refine ⟨pc.1, pe.1, by rw [idxmax, hpc]; rfl, by rw [idxmax, hpe]; rfl,
      ?_, ?_, ?_⟩
    · exact appliance_mem_devices ((mem_map_fst_groupBySum _ _ _ _).mp
        (List.mem_map_of_mem Prod.fst hpcmem))
    · exact appliance_mem_devices ((mem_map_fst_groupBySum _ _ _ _).mp
        (List.mem_map_of_mem Prod.fst hpemem))
    · intro a ha
      have haC : (a, lookupD sumCost a) ∈ sumCost :=
        mem_of_mem_map_fst ((mem_map_fst_groupBySum _ _ _ _).mpr
          (devices_mem_appliances hdays ha))
      have haE : (a, lookupD sumCO2 a) ∈ sumCO2 :=
        mem_of_mem_map_fst ((mem_map_fst_groupBySum _ _ _ _).mpr
          (devices_mem_appliances hdays ha))
      have haCval : lookupD sumCost a = applianceCost rows a := by
        rw [hsumCost, lookupD_groupBySum]
        rfl
      have haEval : lookupD sumCO2 a = applianceCO2 rows a := by
        rw [hsumCO2, lookupD_groupBySum]
        rfl
      constructor
      · have := hpcge _ haC
        rwa [hpcval, haCval] at this
      · have := hpege _ haE
        rwa [hpeval, haEval] at this
  · have hBA : ("B" : String) ≠ "A" := by decide
    constructor <;>
      norm_num [forecastRows, mkRow, groupBySum, insertAdd, idxmax, idxmaxP,
        tariff, TARIFF_DAY, TARIFF_NIGHT, CO2_FACTOR, predictTwoPeaks,
        List.range_succ, hBA]
  · have hBA : ("B" : String) ≠ "A" := by decide
    constructor <;>
      norm_num [forecastRows, mkRow, groupBySum, insertAdd, idxmax, idxmaxP,
        tariff, TARIFF_DAY, TARIFF_NIGHT, CO2_FACTOR, predictFlat,
        List.range_succ, hBA]

theorem C8_witness :
    ∃ ac ax,
      idxmax (groupBySum (fun r => r.Appliance) (fun r => r.Cost)
        (forecastRows ["oven"] 1 2 fun _ _ => 50)) = some ac ∧
      idxmax (groupBySum (fun r => r.Appliance) (fun r => r.CO2_kg)
        (forecastRows ["oven"] 1 2 fun _ _ => 50)) = some ax ∧
      ac ∈ (["oven"] : List String) ∧ ax ∈ (["oven"] : List String) ∧
      ∀ a ∈ (["oven"] : List String),
        applianceCost (forecastRows ["oven"] 1 2 fun _ _ => 50) a
          ≤ applianceCost (forecastRows ["oven"] 1 2 fun _ _ => 50) ac ∧
        applianceCO2 (forecastRows ["oven"] 1 2 fun _ _ => 50) a
          ≤ applianceCO2 (forecastRows ["oven"] 1 2 fun _ _ => 50) ax :=
  C8_top_contributors.1 ["oven"] 1 2 (fun _ _ => 50) (by simp) (by decide)

theorem isSome_getElem?_iff {γ : Type} (l : List γ) (n : ℕ) :
    l[n]?.isSome ↔ n < l.length := by
  constructor
  · intro h
    by_contra hn
    rw [List.getElem?_eq_none_iff.mpr (Nat.le_of_not_lt hn)] at h
    simp at h
  · intro h
    rw [List.getElem?_eq_getElem h]
    simp

/-- C7: on a newline-terminated label file, when the argmax index is in
range the label reported by the prediction page is the line of the label
file (one label per line, terminators excluded) at the position equal to
the argmax index of the classifier output, and that index maximises the
output vector. -/
theorem C7_label_from_argmax (content : List Char) (predictions : List ℚ)
    (hterm : content.getLast? = some '\n')
    (hidx : model_prediction predictions < (readlines content).length) :
    (∃ line,
      (specLines content)[model_prediction predictions]? = some line ∧
      displayedLabel content predictions = some line) ∧
    ∀ (j : ℕ) (v : ℚ), predictions[j]? = some v →
      ∃ m, predictions[model_prediction predictions]? = some m ∧ v ≤ m := by
  constructor
  · have hspec : specLines content = labelList content := by
      rw [specLines, if_pos hterm, ← map_dropLast_readlines hterm]
      rfl
    have hlt : model_prediction predictions < (labelList content).length := by
      rw [labelList, List.length_map]
      exact hidx
    refine ⟨(labelList content)[model_prediction predictions], ?_, ?_⟩
    · rw [hspec]
      exact List.getElem?_eq_getElem hlt
    · rw [displayedLabel]
      exact List.getElem?_eq_getElem hlt
  · intro j v hj
    exact argmax_spec hj

theorem C7_witness :
    (['a', '\n', 'b', '\n'] : List Char).getLast? = some '\n' ∧
    model_prediction [1] < (readlines ['a', '\n', 'b', '\n']).length ∧
    ((∃ line,
      (specLines ['a', '\n', 'b', '\n'])[model_prediction [1]]? = some line ∧
      displayedLabel ['a', '\n', 'b', '\n'] [1] = some line) ∧
    ∀ (j : ℕ) (v : ℚ), ([1] : List ℚ)[j]? = some v →
      ∃ m, ([1] : List ℚ)[model_prediction [1]]? = some m ∧ v ≤ m) :=
  ⟨rfl, by decide,
    C7_label_from_argmax ['a', '\n', 'b', '\n'] [1] rfl (by decide)⟩

/-- C9: every entry of the displayed label list is the corresponding line
of the label file with its final character removed; on the concrete file
"a\nbc", whose last line has no trailing newline, the label of the last
class is "b", missing the final character of its line "bc". -/
theorem C9_label_truncation :
    (∀ (content : List Char) (i : ℕ),
      (labelList content)[i]? = (readlines content)[i]?.map List.dropLast) ∧
    readlines ['a', '\n', 'b', 'c'] = [['a', '\n'], ['b', 'c']] ∧
    labelList ['a', '\n', 'b', 'c'] = [['a'], ['b']] := by
  refine ⟨?_, by decide, by decide⟩
  intro content i
  rw [labelList, List.getElem?_map]

/-- C10: the lookup `label[result_index]` succeeds exactly when the argmax
index is below the number of lines of the label file; on a concrete
two-line label file and a three-class output vector whose argmax is 2, the
lookup fails. -/
theorem C10_unguarded_lookup :
    (∀ (content : List Char) (predictions : List ℚ),
      (displayedLabel content predictions).isSome ↔
        model_prediction predictions < (readlines content).length) ∧
    displayedLabel ['a', '\n', 'b', '\n'] [0, 0, 1] = none := by
  constructor
  · intro content predictions
    rw [displayedLabel, isSome_getElem?_iff, labelList, List.length_map]
  · have hlen : (labelList ['a', '\n', 'b', '\n']).length = 2 := by decide
    have hidx : model_prediction [0, 0, 1] = 2 := by
      norm_num [model_prediction, argmax, enumFromQ, idxmaxP]
    rw [displayedLabel, hidx, List.getElem?_eq_none_iff.mpr (by rw [hlen])]
